import Mathlib

set_option maxRecDepth 100000

/-!
# Verification of the YNAB Balance Monitor projection core (`monitor.py`)

Shallow embedding of the projection engine of `monitor.py`:

* calendar arithmetic (`_add_months`, day-granularity stepping, Python
  `datetime.date` ordering via the proleptic-Gregorian ordinal),
* the recurrence expander `_expand_occurrences`,
* credit-card reconciliation and the day-by-day balance walk of
  `project_minimum_balance`,
* the alert-threshold comparison of `run_check`.

Monetary amounts are modelled as exact rationals (`ℚ`); the Python source
uses floats, whose `0.005` epsilon exists only to absorb float noise, so the
exact-rational model is the intended semantics of the arithmetic.

Python `while` loops are modelled as structural recursion on an explicit
fuel argument; each call site passes fuel equal to the exact number of
iterations the loop performs (derived from the loop's strictly increasing
date measure), so the fuel bound is never the reason a loop stops on the
inputs the theorems quantify over.
-/

/-- A calendar date, as Python's `datetime.date`: year, month (1..12),
day (1..the length of the month).  Fields are unbounded integers; the
predicate `Date.Valid` singles out the dates Python can construct. -/
structure Date where
  year : Int
  month : Int
  day : Int
deriving DecidableEq

/-- `calendar.isleap`: divisible by 4 and (not by 100 or by 400). -/
def isLeap (y : Int) : Bool :=
  (y % 4 == 0) && (y % 100 != 0 || y % 400 == 0)

/-- `calendar.monthrange(y, m)[1]`: the number of days of month `m` in year
`y`.  (Out-of-range months never arise from valid dates; the default is 31.) -/
def daysInMonth (y m : Int) : Int :=
  if m = 2 then (if isLeap y then 29 else 28)
  else if m = 4 ∨ m = 6 ∨ m = 9 ∨ m = 11 then 30
  else 31

/-- Days in year `y` before month number `n+1`. -/
def daysBeforeMonthAux (y : Int) : Nat → Int
  | 0 => 0
  | n + 1 => daysBeforeMonthAux y n + daysInMonth y (n + 1)

/-- Number of days of year `y` that precede month `m` (CPython's
`datetime._days_before_month`). -/
def daysBeforeMonth (y m : Int) : Int :=
  daysBeforeMonthAux y (m - 1).toNat

/-- Number of days before January 1 of year `y`, counting from ordinal day 0
(CPython's `datetime._days_before_year`). -/
def daysBeforeYear (y : Int) : Int :=
  365 * (y - 1) + (y - 1) / 4 - (y - 1) / 100 + (y - 1) / 400

/-- `datetime.date.toordinal`: proleptic-Gregorian ordinal, with
0001-01-01 ↦ 1 (CPython's `_ymd2ord`). -/
def Date.toRD (d : Date) : Int :=
  daysBeforeYear d.year + daysBeforeMonth d.year d.month + d.day

/-- Python `date` objects compare as their ordinals (equivalently, for valid
dates, lexicographically on `(year, month, day)`; see `Date.le_iff_lex`). -/
instance : Preorder Date where
  le a b := a.toRD ≤ b.toRD
  lt a b := a.toRD < b.toRD
  le_refl a := Int.le_refl _
  le_trans a b c := Int.le_trans
  lt_iff_le_not_le a b := Int.lt_iff_le_not_le

instance (a b : Date) : Decidable (a ≤ b) :=
  inferInstanceAs (Decidable (a.toRD ≤ b.toRD))

instance (a b : Date) : Decidable (a < b) :=
  inferInstanceAs (Decidable (a.toRD < b.toRD))

/-- The dates Python's `datetime.date` can hold (day-of-month within range). -/
def Date.Valid (d : Date) : Prop :=
  1 ≤ d.month ∧ d.month ≤ 12 ∧ 1 ≤ d.day ∧ d.day ≤ daysInMonth d.year d.month

instance (d : Date) : Decidable d.Valid :=
  inferInstanceAs (Decidable (_ ∧ _ ∧ _ ∧ _))

/-- `d + timedelta(days=1)`, written on the year/month/day representation. -/
def Date.next (d : Date) : Date :=
  if d.day < daysInMonth d.year d.month then ⟨d.year, d.month, d.day + 1⟩
  else if d.month < 12 then ⟨d.year, d.month + 1, 1⟩
  else ⟨d.year + 1, 1, 1⟩

/-- `d + timedelta(days=n)` for `n ≥ 0`: iterate the successor. -/
def Date.addDays (d : Date) (n : Nat) : Date :=
  Date.next^[n] d

/-- `_add_months(d, months)` from `monitor.py`: add `months` months, then
clamp the day to the last day of the target month.  Lean's `Int` division
and modulus are Euclidean, which agrees with Python's floor division and
modulus for the positive divisor 12. -/
def _add_months (d : Date) (months : Int) : Date :=
  let month := d.month - 1 + months
  let year := d.year + month / 12
  let month2 := month % 12 + 1
  let day := min d.day (daysInMonth year month2)
  ⟨year, month2, day⟩

/-- Linear month index `12·year + month`; `_add_months` shifts it by exactly
its argument. -/
def monthIdx (d : Date) : Int :=
  12 * d.year + d.month

/-! ### Basic calendar lemmas -/

theorem isLeap_iff (y : Int) :
    isLeap y = true ↔ (y % 4 = 0 ∧ (y % 100 ≠ 0 ∨ y % 400 = 0)) := by
  simp [isLeap]

theorem daysInMonth_pos (y m : Int) : 0 < daysInMonth y m := by
  unfold daysInMonth
  split
  · split <;> norm_num
  · split <;> norm_num

theorem daysInMonth_le (y m : Int) : daysInMonth y m ≤ 31 := by
  unfold daysInMonth
  split
  · split <;> norm_num
  · split <;> norm_num

theorem daysBeforeMonth_succ (y m : Int) (hm : 1 ≤ m) :
    daysBeforeMonth y (m + 1) = daysBeforeMonth y m + daysInMonth y m := by
  unfold daysBeforeMonth
  have h1 : (m + 1 - 1).toNat = (m - 1).toNat + 1 := by omega
  have h2 : ((m - 1).toNat : Int) + 1 = m := by omega
  rw [h1]
  simp only [daysBeforeMonthAux, h2]

theorem daysBeforeMonth_nonneg (y m : Int) : 0 ≤ daysBeforeMonth y m := by
  unfold daysBeforeMonth
  generalize (m - 1).toNat = n
  induction n with
  | zero => simp [daysBeforeMonthAux]
  | succ k ih =>
      have := daysInMonth_pos y (k + 1)
      simp only [daysBeforeMonthAux]
      omega

theorem daysBeforeMonth_mono (y : Int) {m m' : Int} (h1 : 1 ≤ m) (h : m ≤ m') :
    daysBeforeMonth y m ≤ daysBeforeMonth y m' := by
  obtain ⟨k, hk⟩ : ∃ k : Nat, m' = m + k := ⟨(m' - m).toNat, by omega⟩
  subst hk
  induction k with
  | zero => simp
  | succ n ih =>
      have hs := daysBeforeMonth_succ y (m + n) (by omega)
      have hp := daysInMonth_pos y (m + n)
      have : (m + (n + 1 : Nat) : Int) = (m + n) + 1 := by push_cast; ring
      rw [this, hs]
      omega

theorem daysBeforeMonth_13 (y : Int) :
    daysBeforeMonth y 13 = if isLeap y then 366 else 365 := by
  unfold daysBeforeMonth
  norm_num
  show daysBeforeMonthAux y 12 = _
  simp only [daysBeforeMonthAux, daysInMonth]
  cases h : isLeap y <;> norm_num

theorem daysBeforeYear_succ (y : Int) :
    daysBeforeYear (y + 1) = daysBeforeYear y + (if isLeap y then 366 else 365) := by
  unfold daysBeforeYear
  cases h : isLeap y
  · have := (isLeap_iff y).not
    simp [h] at this
    norm_num
    omega
  · have := (isLeap_iff y).mp h
    norm_num
    omega

theorem daysBeforeYear_mono {y y' : Int} (h : y ≤ y') :
    daysBeforeYear y ≤ daysBeforeYear y' := by
  obtain ⟨k, hk⟩ : ∃ k : Nat, y' = y + k := ⟨(y' - y).toNat, by omega⟩
  subst hk
  induction k with
  | zero => simp
  | succ n ih =>
      have hs := daysBeforeYear_succ (y + n)
      have : (y + (n + 1 : Nat) : Int) = (y + n) + 1 := by push_cast; ring
      rw [this, hs]
      split <;> omega

theorem daysInMonth_12 (y : Int) : daysInMonth y 12 = 31 := by
  norm_num [daysInMonth]

theorem Date.toRD_next {d : Date} (hd : d.Valid) : d.next.toRD = d.toRD + 1 := by
  obtain ⟨h1, h2, h3, h4⟩ := hd
  unfold Date.next
  split
  · unfold Date.toRD
    dsimp only
    omega
  · split
    · unfold Date.toRD
      dsimp only
      have hs := daysBeforeMonth_succ d.year d.month h1
      omega
    · have hm : d.month = 12 := by omega
      have h12' : daysInMonth d.year d.month = 31 := by
        rw [hm]
        exact daysInMonth_12 d.year
      have hbm : daysBeforeMonth d.year d.month = daysBeforeMonth d.year 12 := by
        rw [hm]
      unfold Date.toRD
      dsimp only
      have hs := daysBeforeYear_succ d.year
      have h13 := daysBeforeMonth_13 d.year
      have hstep := daysBeforeMonth_succ d.year 12 (by norm_num)
      norm_num at hstep
      have h12 := daysInMonth_12 d.year
      have h0 : daysBeforeMonth (d.year + 1) 1 = 0 := by
        unfold daysBeforeMonth
        norm_num
        rfl
      cases hL : isLeap d.year <;> simp [hL] at hs h13 <;> omega

theorem Date.next_valid {d : Date} (hd : d.Valid) : d.next.Valid := by
  obtain ⟨h1, h2, h3, h4⟩ := hd
  unfold Date.next Date.Valid
  split
  · dsimp only
    exact ⟨h1, h2, by omega, by omega⟩
  · split
    · dsimp only
      have := daysInMonth_pos d.year (d.month + 1)
      exact ⟨by omega, by omega, by norm_num, by omega⟩
    · dsimp only
      have := daysInMonth_pos (d.year + 1) 1
      exact ⟨by norm_num, by norm_num, by norm_num, by omega⟩

theorem Date.addDays_spec (d : Date) (hd : d.Valid) (n : Nat) :
    (d.addDays n).Valid ∧ (d.addDays n).toRD = d.toRD + n := by
  induction n with
  | zero => exact ⟨hd, by simp [Date.addDays]⟩
  | succ k ih =>
      obtain ⟨hv, hr⟩ := ih
      have hstep : d.addDays (k + 1) = (d.addDays k).next := by
        unfold Date.addDays
        exact Function.iterate_succ_apply' Date.next k d
      rw [hstep]
      refine ⟨Date.next_valid hv, ?_⟩
      rw [Date.toRD_next hv, hr]
      push_cast
      ring

/-- Strict lexicographic order on `(year, month, day)`: how Python compares
`datetime.date` values. -/
def Date.lexLt (a b : Date) : Prop :=
  a.year < b.year ∨ (a.year = b.year ∧
    (a.month < b.month ∨ (a.month = b.month ∧ a.day < b.day)))

theorem Date.toRD_lt_of_lex {a b : Date} (ha : a.Valid) (hb : b.Valid)
    (h : a.lexLt b) : a.toRD < b.toRD := by
  obtain ⟨ha1, ha2, ha3, ha4⟩ := ha
  obtain ⟨hb1, hb2, hb3, hb4⟩ := hb
  unfold Date.toRD
  rcases h with hy | ⟨hy, hm | ⟨hm, hd⟩⟩
  · have hs := daysBeforeMonth_succ a.year a.month ha1
    have hmono := @daysBeforeMonth_mono a.year (a.month + 1) 13 (by omega) (by omega)
    have h13 := daysBeforeMonth_13 a.year
    have hsucc := daysBeforeYear_succ a.year
    have hmono2 := daysBeforeYear_mono (show a.year + 1 ≤ b.year by omega)
    have hnn := daysBeforeMonth_nonneg b.year b.month
    cases hL : isLeap a.year <;> simp [hL] at h13 hsucc <;> omega
  · rw [← hy]
    have hs := daysBeforeMonth_succ a.year a.month ha1
    have hmono := @daysBeforeMonth_mono a.year (a.month + 1) b.month (by omega) (by omega)
    omega
  · rw [← hy, ← hm]
    omega

theorem Date.lex_trichotomy (a b : Date) : a.lexLt b ∨ a = b ∨ b.lexLt a := by
  obtain ⟨y1, m1, d1⟩ := a
  obtain ⟨y2, m2, d2⟩ := b
  simp only [Date.lexLt, Date.mk.injEq]
  omega

theorem Date.lt_iff_lex {a b : Date} (ha : a.Valid) (hb : b.Valid) :
    a < b ↔ a.lexLt b := by
  constructor
  · intro h
    rcases Date.lex_trichotomy a b with hl | he | hg
    · exact hl
    · subst he
      exfalso
      have : a.toRD < a.toRD := h
      omega
    · exact absurd (Date.toRD_lt_of_lex hb ha hg) (by
        have : a.toRD < b.toRD := h
        omega)
  · exact Date.toRD_lt_of_lex ha hb

theorem Date.toRD_injOn {a b : Date} (ha : a.Valid) (hb : b.Valid)
    (h : a.toRD = b.toRD) : a = b := by
  rcases Date.lex_trichotomy a b with hl | he | hg
  · exact absurd (Date.toRD_lt_of_lex ha hb hl) (by omega)
  · exact he
  · exact absurd (Date.toRD_lt_of_lex hb ha hg) (by omega)

/-- Faithfulness of the ordinal-based order instance: for the dates Python
can construct, it coincides with Python's lexicographic comparison. -/
theorem Date.le_iff_lex {a b : Date} (ha : a.Valid) (hb : b.Valid) :
    a ≤ b ↔ (a.lexLt b ∨ a = b) := by
  constructor
  · intro h
    rcases Date.lex_trichotomy a b with hl | he | hg
    · exact Or.inl hl
    · exact Or.inr he
    · exact absurd (Date.toRD_lt_of_lex hb ha hg) (by
        have : a.toRD ≤ b.toRD := h
        omega)
  · intro h
    rcases h with hl | he
    · have := Date.toRD_lt_of_lex ha hb hl
      show a.toRD ≤ b.toRD
      omega
    · subst he
      show a.toRD ≤ a.toRD
      omega

theorem _add_months_monthIdx (d : Date) (n : Int) :
    monthIdx (_add_months d n) = monthIdx d + n ∧
    1 ≤ (_add_months d n).month ∧ (_add_months d n).month ≤ 12 := by
  unfold _add_months monthIdx
  dsimp only
  omega

theorem _add_months_valid {d : Date} (n : Int) (hd : d.Valid) :
    (_add_months d n).Valid := by
  obtain ⟨h1, h2, h3, h4⟩ := hd
  unfold _add_months Date.Valid
  dsimp only
  have hp := daysInMonth_pos (d.year + (d.month - 1 + n) / 12) ((d.month - 1 + n) % 12 + 1)
  omega

theorem _add_months_lt {d : Date} (n : Int) (hd : d.Valid) (hn : 1 ≤ n) :
    d < _add_months d n := by
  obtain ⟨hidx, hm1, hm2⟩ := _add_months_monthIdx d n
  have hv := _add_months_valid n hd
  have hlex : d.lexLt (_add_months d n) := by
    obtain ⟨h1, h2, h3, h4⟩ := hd
    unfold monthIdx at hidx
    unfold Date.lexLt
    omega
  exact Date.toRD_lt_of_lex hd hv hlex

theorem _add_months_zero {d : Date} (hd : d.Valid) : _add_months d 0 = d := by
  obtain ⟨y, m, dd⟩ := d
  obtain ⟨h1, h2, h3, h4⟩ := hd
  unfold _add_months
  dsimp only at h1 h2 h3 h4 ⊢
  have e1 : y + (m - 1 + 0) / 12 = y := by omega
  have e2 : (m - 1 + 0) % 12 + 1 = m := by omega
  rw [e1, e2]
  simp only [Date.mk.injEq]
  exact ⟨trivial, trivial, min_eq_left h4⟩

theorem _add_months_le {d : Date} (n : Int) (hd : d.Valid) (hn : 0 ≤ n) :
    d ≤ _add_months d n := by
  rcases eq_or_lt_of_le hn with he | hlt
  · rw [← he, _add_months_zero hd]
  · have h := _add_months_lt n hd (by omega)
    have h' : d.toRD < (_add_months d n).toRD := h
    show d.toRD ≤ (_add_months d n).toRD
    omega

theorem _add_months_add {d : Date} (hm : 1 ≤ d.month ∧ d.month ≤ 12)
    (h1 : d.day = 1) (a b : Int) :
    _add_months (_add_months d a) b = _add_months d (a + b) := by
  obtain ⟨y, m, dd⟩ := d
  dsimp only at hm h1
  subst h1
  simp only [_add_months, Date.mk.injEq]
  refine ⟨by omega, by omega, ?_⟩
  have e1 : y + (m - 1 + a) / 12 + ((m - 1 + a) % 12 + 1 - 1 + b) / 12
      = y + (m - 1 + (a + b)) / 12 := by omega
  have e2 : ((m - 1 + a) % 12 + 1 - 1 + b) % 12 + 1 = (m - 1 + (a + b)) % 12 + 1 := by
    omega
  rw [e1, e2]
  have hp1 := daysInMonth_pos (y + (m - 1 + a) / 12) ((m - 1 + a) % 12 + 1)
  rw [min_eq_left (by omega : (1 : Int) ≤ daysInMonth (y + (m - 1 + a) / 12) ((m - 1 + a) % 12 + 1))]

theorem Date.lt_of_monthIdx_lt {a b : Date} (ha : a.Valid) (hb : b.Valid)
    (h : monthIdx a < monthIdx b) : a < b := by
  have hlex : a.lexLt b := by
    obtain ⟨h1, h2, _, _⟩ := ha
    obtain ⟨h3, h4, _, _⟩ := hb
    unfold monthIdx at h
    unfold Date.lexLt
    omega
  exact Date.toRD_lt_of_lex ha hb hlex

/-! ### The recurrence expander (`_expand_occurrences`) -/

/-- The keys of the `DELTAS` dispatch table in `_expand_occurrences`. -/
def knownFreqs : List String :=
  ["daily", "weekly", "everyOtherWeek", "every4Weeks", "monthly",
   "everyOtherMonth", "every3Months", "every4Months", "twiceAMonth",
   "twiceAYear", "yearly", "everyOtherYear"]

/-- The frequencies whose `DELTAS` entry is a step function (everything but
the special-cased `twiceAMonth`). -/
def stepFreqs : List String :=
  ["daily", "weekly", "everyOtherWeek", "every4Weeks", "monthly",
   "everyOtherMonth", "every3Months", "every4Months",
   "twiceAYear", "yearly", "everyOtherYear"]

/-- The step function the `DELTAS` table associates to a frequency code. -/
def advanceFor (freq : String) (d : Date) : Date :=
  if freq = "daily" then d.addDays 1
  else if freq = "weekly" then d.addDays 7
  else if freq = "everyOtherWeek" then d.addDays 14
  else if freq = "every4Weeks" then d.addDays 28
  else if freq = "monthly" then _add_months d 1
  else if freq = "everyOtherMonth" then _add_months d 2
  else if freq = "every3Months" then _add_months d 3
  else if freq = "every4Months" then _add_months d 4
  else if freq = "twiceAYear" then _add_months d 6
  else if freq = "yearly" then _add_months d 12
  else if freq = "everyOtherYear" then _add_months d 24
  else d

/-- The general-case walk of `_expand_occurrences`:
`while d <= end: if d >= start: dates.append(d); d = advance(d)`.
Fuel bounds the iteration count; the caller passes the exact number of
ordinal days left in the window, which the strictly advancing step
functions can never exhaust while the guard still holds. -/
def expandWalk (advance : Date → Date) (start endD : Date) : Date → Nat → List Date
  | _, 0 => []
  | d, n + 1 =>
      if d ≤ endD then
        (if start ≤ d then [d] else []) ++ expandWalk advance start endD (advance d) n
      else []

/-- One iteration body of the `twiceAMonth` month loop: both target days,
clamped to the month's last day, kept when inside `[start, endD]`. -/
def monthCandidates (day1 day2 : Int) (start endD : Date) (d : Date) : List Date :=
  ([day1, day2].map (fun t => (⟨d.year, d.month, min t (daysInMonth d.year d.month)⟩ : Date))).filter
    (fun c => decide (start ≤ c ∧ c ≤ endD))

/-- The `twiceAMonth` month loop: `while d <= month_end: ...; d = _add_months(d, 1)`,
with `d` walking first-of-month dates.  Fuel is the exact month count of the
walked range. -/
def twiceAMonthGo (day1 day2 : Int) (start endD : Date) : Date → Nat → List Date
  | _, 0 => []
  | d, n + 1 =>
      if d ≤ endD then
        monthCandidates day1 day2 start endD d ++
          twiceAMonthGo day1 day2 start endD (_add_months d 1) n
      else []

/-- Insertion of a date into a sorted list (ascending by the date order). -/
def insertDate (x : Date) : List Date → List Date
  | [] => [x]
  | y :: ys => if x ≤ y then x :: y :: ys else y :: insertDate x ys

/-- Insertion sort on dates; together with `List.dedup` this models Python's
`sorted(set(dates))`. -/
def sortDates : List Date → List Date
  | [] => []
  | x :: xs => insertDate x (sortDates xs)

/-- Python's `sorted(set(dates))`: the distinct elements in ascending order. -/
def sortedSet (l : List Date) : List Date :=
  sortDates l.dedup

/-- `_expand_occurrences(next_date, frequency, start, end)` from `monitor.py`. -/
def _expand_occurrences (next_date : Date) (frequency : String) (start endD : Date) :
    List Date :=
  if frequency = "never" ∨ frequency ∉ knownFreqs then
    if start ≤ next_date ∧ next_date ≤ endD then [next_date] else []
  else if frequency = "twiceAMonth" then
    let day1 := next_date.day
    let day2 := if day1 ≤ 15 then day1 + 15 else day1 - 15
    let base := _add_months ⟨next_date.year, next_date.month, 1⟩ (-1)
    sortedSet (twiceAMonthGo day1 day2 start endD base
      ((monthIdx endD - monthIdx base + 1).toNat))
  else
    expandWalk (advanceFor frequency) start endD next_date
      ((endD.toRD + 1 - next_date.toRD).toNat)

/-! ### Reconciliation and the balance simulator (`project_minimum_balance`) -/

/-- A normalized scheduled-transaction occurrence (the dict built in
`get_scheduled_transactions`): its date, signed amount in dollars, and the
optional transfer target account id. -/
structure Txn where
  date : Date
  amount : ℚ
  transfer_account_id : Option String
deriving DecidableEq

/-- One pending credit-card payment record (`{"name": ..., "amount": ...}`). -/
structure CCRec where
  name : String
  amount : ℚ
deriving DecidableEq

/-- Python dict membership/read (`k in m` / `m[k]`): first matching key. -/
def dictGet {β : Type} : List (String × β) → String → Option β
  | [], _ => none
  | (k', v) :: rest, k => if k' = k then some v else dictGet rest k

/-- Python dict assignment `m[k] = v`: replace in place when the key exists,
append otherwise. -/
def dictSet {β : Type} : List (String × β) → String → β → List (String × β)
  | [], k, v => [(k, v)]
  | (k', v') :: rest, k, v =>
      if k' = k then (k, v) :: rest else (k', v') :: dictSet rest k v

/-- Python `del m[k]`: drop the entry with the given key. -/
def dictDel {β : Type} : List (String × β) → String → List (String × β)
  | [], _ => []
  | (k', v') :: rest, k => if k' = k then rest else (k', v') :: dictDel rest k

/-- One step of the reconciliation loop of `project_minimum_balance`
(lines 258-268): if the occurrence transfers to a pending credit-card
account, cover `min(pending, |amount|)` of it, rebuilding the record, and
delete it once the residual is at most 0.005. -/
def reconStep (m : List (String × CCRec)) (t : Txn) : List (String × CCRec) :=
  match t.transfer_account_id with
  | none => m
  | some tid =>
      if tid = "" then m
      else
        match dictGet m tid with
        | none => m
        | some r =>
            let covered := min r.amount |t.amount|
            let newAmt := r.amount - covered
            let m' := dictSet m tid ⟨r.name, newAmt⟩
            if newAmt ≤ (0.005 : ℚ) then dictDel m' tid else m'

/-- The whole reconciliation pass: occurrences processed in their existing
order, starting from a copy of the caller's pending-payment dict. -/
def reconcileCC (ccPayments : List (String × CCRec)) (txns : List Txn) :
    List (String × CCRec) :=
  txns.foldl reconStep ccPayments

/-- `sum(p["amount"] for p in remaining_cc.values())`. -/
def ccTotal (m : List (String × CCRec)) : ℚ :=
  (m.map (fun p => p.2.amount)).sum

/-- The net amount posting on one calendar day: the sum of that day's
occurrence amounts (`txn_by_date` grouping plus the inner loop). -/
def dayDelta (txns : List Txn) (day : Date) : ℚ :=
  ((txns.filter (fun t => t.date = day)).map Txn.amount).sum

/-- The day-by-day projection loop of `project_minimum_balance`
(lines 285-293): apply the day's net amount, then update the running
minimum only on strict decrease.  Fuel is the exact day count of
`[day, endD]`. -/
def walkGo (txns : List Txn) (endD : Date) : ℚ → ℚ → Date → Date → Nat → ℚ × Date
  | _, minB, minD, _, 0 => (minB, minD)
  | bal, minB, minD, day, n + 1 =>
      if day ≤ endD then
        let b := bal + dayDelta txns day
        if b < minB then walkGo txns endD b b day day.next n
        else walkGo txns endD b minB minD day.next n
      else (minB, minD)

/-- `project_minimum_balance(current_balance, scheduled_transactions,
cc_payments, end_date)` from `monitor.py`, with `today` made an explicit
parameter (the Python reads the wall clock).  Returns
`(min_balance, min_date)`. -/
def project_minimum_balance (current_balance : ℚ) (scheduled_transactions : List Txn)
    (cc_payments : List (String × CCRec)) (today end_date : Date) : ℚ × Date :=
  let remaining_cc := reconcileCC cc_payments scheduled_transactions
  let unscheduled_cc_total := ccTotal remaining_cc
  let balance := current_balance - unscheduled_cc_total
  walkGo scheduled_transactions end_date balance balance today today
    ((end_date.toRD + 1 - today.toRD).toNat)

/-! ### The threshold evaluator (`run_check`, lines 390-395) -/

/-- The alert classification of `run_check`: `some shortfall` exactly when
`min_balance < MIN_BALANCE`, with `shortfall = MIN_BALANCE - min_balance`;
`none` in the normal case. -/
def runCheckDecision (min_balance : ℚ) (min_balance_threshold : Int) : Option ℚ :=
  if min_balance < (min_balance_threshold : ℚ) then
    some ((min_balance_threshold : ℚ) - min_balance)
  else none

/-! ### Sorting and dict helper lemmas -/

theorem insertDate_perm (x : Date) (l : List Date) : List.Perm (insertDate x l) (x :: l) := by
  induction l with
  | nil => exact List.Perm.refl _
  | cons y ys ih =>
      unfold insertDate
      split
      · exact List.Perm.refl _
      · exact List.Perm.trans (List.Perm.cons y ih) (List.Perm.swap x y ys)

theorem sortDates_perm (l : List Date) : List.Perm (sortDates l) l := by
  induction l with
  | nil => exact List.Perm.refl _
  | cons x xs ih =>
      exact List.Perm.trans (insertDate_perm x (sortDates xs)) (List.Perm.cons x ih)

theorem insertDate_pairwise {x : Date} {l : List Date}
    (h : l.Pairwise (· ≤ ·)) : (insertDate x l).Pairwise (· ≤ ·) := by
  induction l with
  | nil => simp [insertDate]
  | cons y ys ih =>
      rw [List.pairwise_cons] at h
      obtain ⟨hy, hys⟩ := h
      unfold insertDate
      split
      · rename_i hxy
        rw [List.pairwise_cons]
        refine ⟨?_, List.Pairwise.cons hy hys⟩
        intro z hz
        rcases List.mem_cons.mp hz with rfl | hz
        · exact hxy
        · exact le_trans hxy (hy z hz)
      · rename_i hxy
        rw [List.pairwise_cons]
        refine ⟨?_, ih hys⟩
        intro z hz
        have hz' := (insertDate_perm x ys).mem_iff.mp hz
        rcases List.mem_cons.mp hz' with rfl | hz'
        · have : z.toRD ≤ y.toRD ∨ y.toRD ≤ z.toRD := Int.le_total _ _
          have hnot : ¬ z.toRD ≤ y.toRD := hxy
          show y.toRD ≤ z.toRD
          omega
        · exact hy z hz'

theorem sortDates_pairwise (l : List Date) : (sortDates l).Pairwise (· ≤ ·) := by
  induction l with
  | nil => simp [sortDates]
  | cons x xs ih => exact insertDate_pairwise ih

theorem sortedSet_perm_dedup (l : List Date) : List.Perm (sortedSet l) l.dedup :=
  sortDates_perm l.dedup

theorem sortedSet_nodup (l : List Date) : (sortedSet l).Nodup :=
  (sortedSet_perm_dedup l).nodup_iff.mpr (List.nodup_dedup l)

theorem sortedSet_mem {x : Date} {l : List Date} : x ∈ sortedSet l ↔ x ∈ l := by
  rw [(sortedSet_perm_dedup l).mem_iff, List.mem_dedup]

theorem sortedSet_pairwise_lt (l : List Date) (hval : ∀ x ∈ l, x.Valid) :
    (sortedSet l).Pairwise (· < ·) := by
  have hle : (sortedSet l).Pairwise (· ≤ ·) := sortDates_pairwise l.dedup
  have hne : (sortedSet l).Pairwise (· ≠ ·) := sortedSet_nodup l
  have hand := hle.and hne
  refine hand.imp_of_mem ?_
  intro a b ha hb hab
  obtain ⟨hab1, hab2⟩ := hab
  have hva := hval a (sortedSet_mem.mp ha)
  have hvb := hval b (sortedSet_mem.mp hb)
  have h1 : a.toRD ≤ b.toRD := hab1
  show a.toRD < b.toRD
  rcases lt_or_eq_of_le h1 with h | h
  · exact h
  · exact absurd (Date.toRD_injOn hva hvb h) hab2

theorem dictGet_mem {β : Type} {m : List (String × β)} {k : String} {v : β}
    (h : dictGet m k = some v) : (k, v) ∈ m := by
  induction m with
  | nil => simp [dictGet] at h
  | cons p rest ih =>
      obtain ⟨k', v'⟩ := p
      unfold dictGet at h
      split at h
      · rename_i he
        subst he
        simp at h
        subst h
        exact List.mem_cons_self _ _
      · exact List.mem_cons_of_mem _ (ih h)

theorem mem_dictSet {β : Type} {m : List (String × β)} {k : String} {v : β}
    {p : String × β} (h : p ∈ dictSet m k v) : p = (k, v) ∨ p ∈ m := by
  induction m with
  | nil =>
      simp [dictSet] at h
      exact Or.inl h
  | cons q rest ih =>
      obtain ⟨k', v'⟩ := q
      unfold dictSet at h
      split at h
      · rcases List.mem_cons.mp h with rfl | h
        · exact Or.inl rfl
        · exact Or.inr (List.mem_cons_of_mem _ h)
      · rcases List.mem_cons.mp h with rfl | h
        · exact Or.inr (List.mem_cons_self _ _)
        · rcases ih h with h | h
          · exact Or.inl h
          · exact Or.inr (List.mem_cons_of_mem _ h)

theorem mem_dictDel {β : Type} {m : List (String × β)} {k : String}
    {p : String × β} (h : p ∈ dictDel m k) : p ∈ m := by
  induction m with
  | nil => simpa [dictDel] using h
  | cons q rest ih =>
      obtain ⟨k', v'⟩ := q
      unfold dictDel at h
      split at h
      · exact List.mem_cons_of_mem _ h
      · rcases List.mem_cons.mp h with rfl | h
        · exact List.mem_cons_self _ _
        · exact List.mem_cons_of_mem _ (ih h)

theorem dictGet_dictSet_self {β : Type} (m : List (String × β)) (k : String) (v : β) :
    dictGet (dictSet m k v) k = some v := by
  induction m with
  | nil => simp [dictSet, dictGet]
  | cons q rest ih =>
      obtain ⟨k', v'⟩ := q
      unfold dictSet
      split
      · simp [dictGet]
      · rename_i hne
        unfold dictGet
        rw [if_neg hne]
        exact ih

theorem dictGet_eq_none_of_not_mem_keys {β : Type} {m : List (String × β)} {k : String}
    (h : k ∉ m.map Prod.fst) : dictGet m k = none := by
  induction m with
  | nil => rfl
  | cons q rest ih =>
      obtain ⟨k', v'⟩ := q
      simp only [List.map_cons, List.mem_cons] at h
      push_neg at h
      unfold dictGet
      have hne : ¬ k' = k := by
        intro hsym
        exact (by simpa using h.1 : ¬ k = k') hsym.symm
      rw [if_neg hne]
      exact ih h.2

theorem dictGet_dictDel_dictSet {β : Type} {m : List (String × β)} {k : String} (v : β)
    (hnd : (m.map Prod.fst).Nodup) :
    dictGet (dictDel (dictSet m k v) k) k = none := by
  induction m with
  | nil => simp [dictSet, dictDel, dictGet]
  | cons q rest ih =>
      obtain ⟨k', v'⟩ := q
      simp only [List.map_cons, List.nodup_cons] at hnd
      obtain ⟨hk', hrest⟩ := hnd
      unfold dictSet
      split
      · rename_i he
        subst he
        unfold dictDel
        rw [if_pos rfl]
        exact dictGet_eq_none_of_not_mem_keys hk'
      · rename_i hne
        unfold dictDel
        rw [if_neg hne]
        unfold dictGet
        rw [if_neg hne]
        exact ih hrest

theorem foldl_min_le_init (l : List ℚ) (a : ℚ) : l.foldl min a ≤ a := by
  induction l generalizing a with
  | nil => exact le_refl a
  | cons x xs ih => exact le_trans (ih (min a x)) (min_le_left a x)

/-! ### Expander lemmas -/

theorem Date.addDays_lt {d : Date} (hd : d.Valid) {n : Nat} (hn : 1 ≤ n) :
    d < d.addDays n := by
  obtain ⟨hv, hr⟩ := Date.addDays_spec d hd n
  show d.toRD < (d.addDays n).toRD
  omega

set_option maxRecDepth 4096 in
/-- Every step function in the `DELTAS` table strictly advances any valid
date and lands on a valid date. -/
theorem advanceFor_strict {freq : String} (hf : freq ∈ stepFreqs) {d : Date}
    (hd : d.Valid) : d < advanceFor freq d ∧ (advanceFor freq d).Valid := by
  have hday : ∀ k : Nat, 1 ≤ k → d < d.addDays k ∧ (d.addDays k).Valid := by
    intro k hk
    exact ⟨Date.addDays_lt hd hk, (Date.addDays_spec d hd k).1⟩
  have hmon : ∀ n : Int, 1 ≤ n → d < _add_months d n ∧ (_add_months d n).Valid :=
    fun n hn => ⟨_add_months_lt n hd hn, _add_months_valid n hd⟩
  fin_cases hf
  · exact hday 1 (by norm_num)
  · exact hday 7 (by norm_num)
  · exact hday 14 (by norm_num)
  · exact hday 28 (by norm_num)
  · exact hmon 1 (by norm_num)
  · exact hmon 2 (by norm_num)
  · exact hmon 3 (by norm_num)
  · exact hmon 4 (by norm_num)
  · exact hmon 6 (by norm_num)
  · exact hmon 12 (by norm_num)
  · exact hmon 24 (by norm_num)

theorem expandWalk_spec (advance : Date → Date)
    (hAdv : ∀ x : Date, x.Valid → x < advance x ∧ (advance x).Valid)
    (start endD : Date) :
    ∀ (n : Nat) (d : Date), d.Valid →
      (expandWalk advance start endD d n).Pairwise (· < ·) ∧
      ∀ x ∈ expandWalk advance start endD d n,
        x.Valid ∧ start ≤ x ∧ x ≤ endD ∧ d ≤ x := by
  intro n
  induction n with
  | zero =>
      intro d hd
      simp [expandWalk]
  | succ k ih =>
      intro d hd
      unfold expandWalk
      split
      · rename_i h1
        obtain ⟨hadv1, hadv2⟩ := hAdv d hd
        obtain ⟨ihp, ihm⟩ := ih (advance d) hadv2
        split
        · rename_i h2
          simp only [List.singleton_append]
          constructor
          · rw [List.pairwise_cons]
            refine ⟨?_, ihp⟩
            intro x hx
            exact lt_of_lt_of_le hadv1 (ihm x hx).2.2.2
          · intro x hx
            rcases List.mem_cons.mp hx with rfl | hx
            · exact ⟨hd, h2, h1, le_refl x⟩
            · obtain ⟨hv, hs, he, hge⟩ := ihm x hx
              exact ⟨hv, hs, he, le_trans (le_of_lt hadv1) hge⟩
        · simp only [List.nil_append]
          refine ⟨ihp, ?_⟩
          intro x hx
          obtain ⟨hv, hs, he, hge⟩ := ihm x hx
          exact ⟨hv, hs, he, le_trans (le_of_lt hadv1) hge⟩
      · simp

theorem monthCandidates_mem {day1 day2 : Int} {start endD : Date} {d : Date}
    (hd1 : 1 ≤ day1) (hd2 : 1 ≤ day2) (hm1 : 1 ≤ d.month) (hm2 : d.month ≤ 12) :
    ∀ x ∈ monthCandidates day1 day2 start endD d, x.Valid ∧ start ≤ x ∧ x ≤ endD := by
  intro x hx
  unfold monthCandidates at hx
  rw [List.mem_filter] at hx
  obtain ⟨hmem, hcond⟩ := hx
  simp only [decide_eq_true_eq] at hcond
  refine ⟨?_, hcond.1, hcond.2⟩
  simp only [List.map_cons, List.map_nil, List.mem_cons, List.not_mem_nil, or_false] at hmem
  have hpos := daysInMonth_pos d.year d.month
  rcases hmem with rfl | rfl
  · exact ⟨hm1, hm2, by dsimp only; omega, by dsimp only; exact min_le_right _ _⟩
  · exact ⟨hm1, hm2, by dsimp only; omega, by dsimp only; exact min_le_right _ _⟩

theorem twiceAMonthGo_mem (day1 day2 : Int) (start endD : Date)
    (hd1 : 1 ≤ day1) (hd2 : 1 ≤ day2) :
    ∀ (n : Nat) (d : Date), d.Valid →
      ∀ x ∈ twiceAMonthGo day1 day2 start endD d n,
        x.Valid ∧ start ≤ x ∧ x ≤ endD := by
  intro n
  induction n with
  | zero =>
      intro d hd x hx
      simp [twiceAMonthGo] at hx
  | succ k ih =>
      intro d hd x hx
      unfold twiceAMonthGo at hx
      split at hx
      · rw [List.mem_append] at hx
        rcases hx with hx | hx
        · exact monthCandidates_mem hd1 hd2 hd.1 hd.2.1 x hx
        · exact ih (_add_months d 1) (_add_months_valid 1 hd) x hx
      · simp at hx

theorem _add_months_day_one {d : Date} (h : d.day = 1) (n : Int) :
    (_add_months d n).day = 1 := by
  unfold _add_months
  dsimp only
  rw [h]
  have := daysInMonth_pos (d.year + (d.month - 1 + n) / 12) ((d.month - 1 + n) % 12 + 1)
  exact min_eq_left (by omega)

/-- The months considered by the claim's reading of `twiceAMonth`: `n`
consecutive months starting at `d`. -/
def monthStream (d : Date) (n : Nat) : List Date :=
  (List.range n).map (fun i => _add_months d (Int.ofNat i))

theorem monthStream_succ {d : Date} (hd : d.Valid) (h1 : d.day = 1) (k : Nat) :
    monthStream d (k + 1) = d :: monthStream (_add_months d 1) k := by
  unfold monthStream
  rw [List.range_succ_eq_map, List.map_cons, List.map_map]
  have hhead : _add_months d (Int.ofNat 0) = d := by
    show _add_months d 0 = d
    exact _add_months_zero hd
  rw [hhead]
  refine congrArg (d :: ·) ?_
  refine List.map_congr_left ?_
  intro a _
  show _add_months d (Int.ofNat (Nat.succ a)) = _add_months (_add_months d 1) (Int.ofNat a)
  rw [_add_months_add ⟨hd.1, hd.2.1⟩ h1 1 (Int.ofNat a)]
  refine congrArg (_add_months d) ?_
  simp only [Int.ofNat_eq_coe]
  push_cast
  ring

/-- The `twiceAMonth` month loop walks exactly the months
`base, base+1mo, …` whose first day is at most `endD` (the fuel counts the
whole range), emitting each month's candidate pair in order. -/
theorem twiceAMonthGo_eq (day1 day2 : Int) (start endD : Date) :
    ∀ (n : Nat) (d : Date), d.Valid → d.day = 1 →
      twiceAMonthGo day1 day2 start endD d n =
        ((monthStream d n).filter (fun m => decide (m ≤ endD))).flatMap
          (monthCandidates day1 day2 start endD) := by
  intro n
  induction n with
  | zero =>
      intro d hd h1
      simp [twiceAMonthGo, monthStream]
  | succ k ih =>
      intro d hd h1
      rw [monthStream_succ hd h1]
      unfold twiceAMonthGo
      split
      · rename_i hguard
        rw [List.filter_cons_of_pos (by simpa using hguard)]
        rw [List.flatMap_cons]
        rw [ih (_add_months d 1) (_add_months_valid 1 hd) (_add_months_day_one h1 1)]
      · rename_i hguard
        rw [List.filter_cons_of_neg (by simpa using hguard)]
        have hrest : List.filter (fun m => decide (m ≤ endD))
            (monthStream (_add_months d 1) k) = [] := by
          rw [List.filter_eq_nil_iff]
          intro a ha
          unfold monthStream at ha
          rw [List.mem_map] at ha
          obtain ⟨i, _, rfl⟩ := ha
          simp only [decide_eq_true_eq]
          intro hle
          have e : _add_months (_add_months d 1) (Int.ofNat i) = _add_months d (1 + Int.ofNat i) := by
            rw [_add_months_add ⟨hd.1, hd.2.1⟩ h1 1 (Int.ofNat i)]
          have hlt : d < _add_months (_add_months d 1) (Int.ofNat i) := by
            rw [e]
            exact _add_months_lt (1 + Int.ofNat i) hd
              (by simp only [Int.ofNat_eq_coe]; omega)
          have hc : d.toRD < endD.toRD :=
            lt_of_lt_of_le (show d.toRD < _ from hlt) (show _ ≤ endD.toRD from hle)
          exact hguard (show d.toRD ≤ endD.toRD by omega)
        rw [hrest]
        simp

/-! ### Day-walk machinery for the simulator -/

/-- The calendar days the projection loop visits: from `d` while `≤ endD`. -/
def dayListGo (endD : Date) : Date → Nat → List Date
  | _, 0 => []
  | d, n + 1 => if d ≤ endD then d :: dayListGo endD d.next n else []

/-- Running end-of-day balances paired with their days. -/
def balSeq (f : Date → ℚ) : ℚ → List Date → List (ℚ × Date)
  | _, [] => []
  | bal, d :: ds => (bal + f d, d) :: balSeq f (bal + f d) ds

/-- The minimum update of the projection loop: replace only on strict
decrease. -/
def minStep (acc p : ℚ × Date) : ℚ × Date :=
  if p.1 < acc.1 then p else acc

theorem walkGo_eq_fold (txns : List Txn) (endD : Date) :
    ∀ (n : Nat) (bal minB : ℚ) (minD day : Date),
      walkGo txns endD bal minB minD day n =
        List.foldl minStep (minB, minD)
          (balSeq (dayDelta txns) bal (dayListGo endD day n)) := by
  intro n
  induction n with
  | zero =>
      intro bal minB minD day
      simp [walkGo, dayListGo, balSeq]
  | succ k ih =>
      intro bal minB minD day
      by_cases hg : day ≤ endD
      · simp only [walkGo, dayListGo, if_pos hg, balSeq, List.foldl_cons]
        by_cases hb : bal + dayDelta txns day < minB
        · have hms : minStep (minB, minD) (bal + dayDelta txns day, day)
              = (bal + dayDelta txns day, day) := by
            simp [minStep, hb]
          rw [if_pos hb, hms, ih]
        · have hms : minStep (minB, minD) (bal + dayDelta txns day, day)
              = (minB, minD) := by
            simp [minStep, hb]
          rw [if_neg hb, hms, ih]
      · simp [walkGo, dayListGo, if_neg hg, balSeq]

theorem dayListGo_range (endD : Date) :
    ∀ (n : Nat) (d : Date), d.Valid → (n = 0 ∨ d.toRD + n = endD.toRD + 1) →
      dayListGo endD d n = (List.range n).map d.addDays := by
  intro n
  induction n with
  | zero =>
      intro d _ _
      simp [dayListGo]
  | succ k ih =>
      intro d hd hn
      have hrd : d.toRD + (k + 1) = endD.toRD + 1 := by
        rcases hn with h | h
        · exact absurd h (by omega)
        · push_cast at h ⊢
          omega
      have hg : d ≤ endD := by
        show d.toRD ≤ endD.toRD
        omega
      simp only [dayListGo, if_pos hg]
      rw [ih d.next (Date.next_valid hd) (Or.inr (by rw [Date.toRD_next hd]; push_cast at hrd ⊢; omega))]
      rw [List.range_succ_eq_map, List.map_cons, List.map_map]
      have hhead : d.addDays 0 = d := rfl
      rw [hhead]
      refine congrArg (d :: ·) ?_
      refine List.map_congr_left ?_
      intro a _
      show d.addDays (Nat.succ a) = d.next.addDays a
      unfold Date.addDays
      exact Function.iterate_succ_apply Date.next a d

theorem minFold_spec :
    ∀ (ps : List (ℚ × Date)) (m0 : ℚ) (d0 : Date),
      (List.foldl minStep (m0, d0) ps).1 = (ps.map Prod.fst).foldl min m0 ∧
      ((m0, d0) :: ps).find?
          (fun p => decide (p.1 = (List.foldl minStep (m0, d0) ps).1)) =
        some (List.foldl minStep (m0, d0) ps) := by
  intro ps
  induction ps with
  | nil =>
      intro m0 d0
      refine ⟨rfl, ?_⟩
      simp [List.find?]
  | cons q ps ih =>
      obtain ⟨b, d⟩ := q
      intro m0 d0
      simp only [List.foldl_cons, List.map_cons]
      by_cases hb : b < m0
      · have hms : minStep (m0, d0) (b, d) = (b, d) := by simp [minStep, hb]
        simp only [hms]
        obtain ⟨ih1, ih2⟩ := ih b d
        refine ⟨?_, ?_⟩
        · rw [ih1, min_eq_right (le_of_lt hb)]
        · have hr1 : (List.foldl minStep (b, d) ps).1 ≤ b := by
            rw [ih1]
            exact foldl_min_le_init _ _
          have hne : ¬ (m0 = (List.foldl minStep (b, d) ps).1) := by
            intro he
            rw [← he] at hr1
            linarith
          rw [List.find?_cons_of_neg _ (by simpa using hne)]
          exact ih2
      · have hms : minStep (m0, d0) (b, d) = (m0, d0) := by simp [minStep, hb]
        simp only [hms]
        obtain ⟨ih1, ih2⟩ := ih m0 d0
        have hm0b : min m0 b = m0 := min_eq_left (le_of_not_lt hb)
        refine ⟨?_, ?_⟩
        · rw [ih1, hm0b]
        · by_cases he : m0 = (List.foldl minStep (m0, d0) ps).1
          · rw [List.find?_cons_of_pos _ (by simpa using he)]
            have h' := ih2
            rw [List.find?_cons_of_pos _ (by simpa using he)] at h'
            exact h'
          · rw [List.find?_cons_of_neg _ (by simpa using he)]
            have hr1 : (List.foldl minStep (m0, d0) ps).1 ≤ m0 := by
              rw [ih1]
              exact foldl_min_le_init _ _
            have hbne : ¬ (b = (List.foldl minStep (m0, d0) ps).1) := by
              intro hbe
              have hm0le : m0 ≤ b := le_of_not_lt hb
              have : (List.foldl minStep (m0, d0) ps).1 < m0 :=
                lt_of_le_of_ne hr1 (fun hx => he hx.symm)
              rw [← hbe] at this
              linarith
            rw [List.find?_cons_of_neg _ (by simpa using hbne)]
            have h' := ih2
            rw [List.find?_cons_of_neg _ (by simpa using he)] at h'
            exact h'

/-! ### Nonnegativity of reconciliation -/

theorem reconStep_amount_nonneg {m : List (String × CCRec)} {t : Txn}
    (h : ∀ p ∈ m, 0 ≤ p.2.amount) :
    ∀ p ∈ reconStep m t, 0 ≤ p.2.amount := by
  intro p hp
  unfold reconStep at hp
  cases hTrans : t.transfer_account_id with
  | none =>
      rw [hTrans] at hp
      exact h p hp
  | some tid =>
      rw [hTrans] at hp
      replace hp : p ∈ (if tid = "" then m
          else match dictGet m tid with
            | none => m
            | some r =>
                let covered := min r.amount |t.amount|
                let newAmt := r.amount - covered
                let m' := dictSet m tid ⟨r.name, newAmt⟩
                if newAmt ≤ (0.005 : ℚ) then dictDel m' tid else m') := hp
      split at hp
      · exact h p hp
      · cases hget : dictGet m tid with
        | none =>
            rw [hget] at hp
            exact h p hp
        | some r =>
            rw [hget] at hp
            have hr : 0 ≤ r.amount := h _ (dictGet_mem hget)
            have hnew : 0 ≤ r.amount - min r.amount |t.amount| := by
              have := min_le_left r.amount |t.amount|
              linarith
            replace hp : p ∈ (if r.amount - min r.amount |t.amount| ≤ (0.005 : ℚ)
                then dictDel (dictSet m tid ⟨r.name, r.amount - min r.amount |t.amount|⟩) tid
                else dictSet m tid ⟨r.name, r.amount - min r.amount |t.amount|⟩) := hp
            split at hp
            · rcases mem_dictSet (mem_dictDel hp) with rfl | hp2
              · exact hnew
              · exact h p hp2
            · rcases mem_dictSet hp with rfl | hp2
              · exact hnew
              · exact h p hp2

theorem reconcileCC_amount_nonneg :
    ∀ (txns : List Txn) (m : List (String × CCRec)),
      (∀ p ∈ m, 0 ≤ p.2.amount) →
      ∀ p ∈ reconcileCC m txns, 0 ≤ p.2.amount := by
  intro txns
  induction txns with
  | nil => intro m h p hp; exact h p hp
  | cons t ts ih =>
      intro m h p hp
      exact ih (reconStep m t) (reconStep_amount_nonneg h) p hp

theorem ccTotal_nonneg {m : List (String × CCRec)}
    (h : ∀ p ∈ m, 0 ≤ p.2.amount) : 0 ≤ ccTotal m := by
  unfold ccTotal
  refine List.sum_nonneg ?_
  intro x hx
  rw [List.mem_map] at hx
  obtain ⟨p, hp, rfl⟩ := hx
  exact h p hp

theorem walkGo_fst_le (txns : List Txn) (endD : Date) :
    ∀ (n : Nat) (bal minB : ℚ) (minD day : Date),
      (walkGo txns endD bal minB minD day n).1 ≤ minB := by
  intro n
  induction n with
  | zero =>
      intro bal minB minD day
      exact le_refl _
  | succ k ih =>
      intro bal minB minD day
      by_cases hg : day ≤ endD
      · simp only [walkGo, if_pos hg]
        by_cases hb : bal + dayDelta txns day < minB
        · rw [if_pos hb]
          exact le_trans (ih _ _ _ _) (le_of_lt hb)
        · rw [if_neg hb]
          exact ih _ _ _ _
      · simp only [walkGo, if_neg hg]
        exact le_refl _

/-- The projected minimum never exceeds the starting balance when every
pending credit-card amount is nonnegative (as the data model requires). -/
theorem project_minimum_balance_fst_le (current_balance : ℚ) (txns : List Txn)
    (cc : List (String × CCRec)) (today endD : Date)
    (hcc : ∀ p ∈ cc, 0 ≤ p.2.amount) :
    (project_minimum_balance current_balance txns cc today endD).1 ≤ current_balance := by
  unfold project_minimum_balance
  have h1 : 0 ≤ ccTotal (reconcileCC cc txns) :=
    ccTotal_nonneg (reconcileCC_amount_nonneg txns cc hcc)
  have h2 := walkGo_fst_le txns endD ((endD.toRD + 1 - today.toRD).toNat)
    (current_balance - ccTotal (reconcileCC cc txns))
    (current_balance - ccTotal (reconcileCC cc txns)) today today
  linarith

/-! ### Store-passing model of the reconciliation copy semantics -/

/-- Store-passing rendition of one reconciliation step: pending records live
in a `store`; dicts map account ids to store addresses.  `dict(cc_payments)`
shares record addresses with the caller, and the update
`{**old, "amount": new}` allocates a fresh record at the end of the store and
rebinds only the copy's key, so the caller's records are never written. -/
def reconStepStore (p : List CCRec × List (String × Nat)) (t : Txn) :
    List CCRec × List (String × Nat) :=
  match t.transfer_account_id with
  | none => p
  | some tid =>
      if tid = "" then p
      else
        match dictGet p.2 tid with
        | none => p
        | some addr =>
            match p.1[addr]? with
            | none => p
            | some r =>
                let covered := min r.amount |t.amount|
                let newAmt := r.amount - covered
                let store2 := p.1 ++ [⟨r.name, newAmt⟩]
                let m2 := dictSet p.2 tid p.1.length
                if newAmt ≤ (0.005 : ℚ) then (store2, dictDel m2 tid) else (store2, m2)

/-- `project_minimum_balance` in the store-passing rendition: the result of
the walk, plus the final store and the reconciled copy of the dict. -/
def project_minimum_balance_heap (current_balance : ℚ) (txns : List Txn)
    (store : List CCRec) (cc_payments : List (String × Nat)) (today end_date : Date) :
    (ℚ × Date) × List CCRec × List (String × Nat) :=
  let s := txns.foldl reconStepStore (store, cc_payments)
  let total := (s.2.map (fun p => (s.1[p.2]?.getD ⟨"", 0⟩).amount)).sum
  let balance := current_balance - total
  (walkGo txns end_date balance balance today today
    ((end_date.toRD + 1 - today.toRD).toNat), s)

theorem reconStepStore_fst (p : List CCRec × List (String × Nat)) (t : Txn) :
    ∃ ext, (reconStepStore p t).1 = p.1 ++ ext := by
  obtain ⟨store, m⟩ := p
  unfold reconStepStore
  split
  · exact ⟨[], by simp⟩
  · split
    · exact ⟨[], by simp⟩
    · split
      · exact ⟨[], by simp⟩
      · split
        · exact ⟨[], by simp⟩
        · rename_i r hr
          refine ⟨[⟨r.name, r.amount - min r.amount |t.amount|⟩], ?_⟩
          show (if r.amount - min r.amount |t.amount| ≤ (0.005 : ℚ)
              then (store ++ [⟨r.name, r.amount - min r.amount |t.amount|⟩],
                    dictDel (dictSet m _ store.length) _)
              else (store ++ [⟨r.name, r.amount - min r.amount |t.amount|⟩],
                    dictSet m _ store.length)).1
            = store ++ [⟨r.name, r.amount - min r.amount |t.amount|⟩]
          rw [apply_ite Prod.fst]
          simp

theorem foldl_reconStepStore_fst :
    ∀ (ts : List Txn) (p : List CCRec × List (String × Nat)),
      ∃ ext, (List.foldl reconStepStore p ts).1 = p.1 ++ ext := by
  intro ts
  induction ts with
  | nil =>
      intro p
      exact ⟨[], by simp⟩
  | cons t ts ih =>
      intro p
      obtain ⟨e1, he1⟩ := reconStepStore_fst p t
      obtain ⟨e2, he2⟩ := ih (reconStepStore p t)
      rw [List.foldl_cons]
      exact ⟨e1 ++ e2, by rw [he2, he1, List.append_assoc]⟩

/-! ### Spec-side renditions of the `twiceAMonth` rule -/

/-- The `twiceAMonth` rule as §4.2 of the spec words it, parameterised by the
first walked month `base`: for every month from `base` through `windowEnd`,
both target days (day-of-month `day1` and its pair), clamped to the month's
last day, are candidates; those inside `[start, endD]` are kept, deduplicated
and sorted. -/
def twiceAMonthFromBase (base : Date) (day1 : Int) (start endD : Date) : List Date :=
  let day2 := if day1 ≤ 15 then day1 + 15 else day1 - 15
  let months := (monthStream base ((monthIdx endD - monthIdx base + 1).toNat)).filter
      (fun m => decide (m ≤ endD))
  sortedSet (months.flatMap (monthCandidates day1 day2 start endD))

/-- The spec's `twiceAMonth` description with the month range anchored one
month before the *anchor's* month (what the code does). -/
def twiceAMonthSpecAnchor (anchor start endD : Date) : List Date :=
  twiceAMonthFromBase (_add_months ⟨anchor.year, anchor.month, 1⟩ (-1)) anchor.day
    start endD

/-- The claim's literal `twiceAMonth` description: the month range anchored
one month before *windowStart's* month. -/
def twiceAMonthSpecWindowStart (anchor start endD : Date) : List Date :=
  twiceAMonthFromBase (_add_months ⟨start.year, start.month, 1⟩ (-1)) anchor.day
    start endD

/-! ### Branch lemmas for `_expand_occurrences` -/

set_option maxRecDepth 8192 in
theorem _expand_occurrences_twiceAMonth (next_date start endD : Date) :
    _expand_occurrences next_date "twiceAMonth" start endD =
      sortedSet (twiceAMonthGo next_date.day
        (if next_date.day ≤ 15 then next_date.day + 15 else next_date.day - 15)
        start endD (_add_months ⟨next_date.year, next_date.month, 1⟩ (-1))
        ((monthIdx endD -
            monthIdx (_add_months ⟨next_date.year, next_date.month, 1⟩ (-1)) + 1).toNat)) := by
  unfold _expand_occurrences
  rw [if_neg (by decide), if_pos rfl]

theorem _expand_occurrences_walk {frequency : String} (next_date start endD : Date)
    (hkn : frequency ∈ knownFreqs) (hnv : frequency ≠ "never")
    (htm : frequency ≠ "twiceAMonth") :
    _expand_occurrences next_date frequency start endD =
      expandWalk (advanceFor frequency) start endD next_date
        ((endD.toRD + 1 - next_date.toRD).toNat) := by
  unfold _expand_occurrences
  rw [if_neg ?_, if_neg htm]
  intro h
  rcases h with h | h
  · exact hnv h
  · exact h hkn

set_option maxRecDepth 8192 in
theorem mem_stepFreqs_of_mem_knownFreqs {f : String} (hkn : f ∈ knownFreqs)
    (h : f ≠ "twiceAMonth") : f ∈ stepFreqs := by
  fin_cases hkn <;> first
    | exact absurd rfl h
    | decide

/-! ### Small helpers for the claim theorems -/

theorem Date.ext' (a b : Date) (hy : a.year = b.year) (hm : a.month = b.month)
    (hd : a.day = b.day) : a = b := by
  obtain ⟨y1, m1, d1⟩ := a
  obtain ⟨y2, m2, d2⟩ := b
  dsimp only at hy hm hd
  rw [hy, hm, hd]

theorem _add_months_day_eq (d : Date) (n : Int) :
    (_add_months d n).day =
      min d.day (daysInMonth (_add_months d n).year (_add_months d n).month) := rfl

/-! ### The claims -/

/-- C4: for every valid date `d` and integer `n`,
`_add_months(_add_months(d, n), -n) = d` whenever no day-of-month clamping
occurred on either application; when clamping occurs, `_add_months` yields
the last day of the correct target month (the month index moves by exactly
`n`), e.g. `_add_months(2024-01-31, 1) = 2024-02-29` and
`_add_months(2023-01-31, 1) = 2023-02-28`. -/
theorem C4_add_months_round_trip_and_clamp (d : Date) (n : Int) (hd : d.Valid) :
    ((_add_months d n).day = d.day →
      (_add_months (_add_months d n) (-n)).day = (_add_months d n).day →
      _add_months (_add_months d n) (-n) = d) ∧
    (daysInMonth (_add_months d n).year (_add_months d n).month < d.day →
      (_add_months d n).day = daysInMonth (_add_months d n).year (_add_months d n).month ∧
      monthIdx (_add_months d n) = monthIdx d + n) ∧
    _add_months ⟨2024, 1, 31⟩ 1 = ⟨2024, 2, 29⟩ ∧
    _add_months ⟨2023, 1, 31⟩ 1 = ⟨2023, 2, 28⟩ := by
  refine ⟨?_, ?_, by decide, by decide⟩
  · intro h1 h2
    have hA := _add_months_monthIdx d n
    have hB := _add_months_monthIdx (_add_months d n) (-n)
    have hym : (_add_months (_add_months d n) (-n)).year = d.year ∧
        (_add_months (_add_months d n) (-n)).month = d.month := by
      obtain ⟨hm1, hm2, _, _⟩ := hd
      unfold monthIdx at hA hB
      omega
    refine Date.ext' _ _ hym.1 hym.2 ?_
    rw [_add_months_day_eq (_add_months d n) (-n), h1, hym.1, hym.2]
    exact min_eq_left hd.2.2.2
  · intro hcl
    refine ⟨?_, (_add_months_monthIdx d n).1⟩
    rw [_add_months_day_eq d n]
    exact min_eq_right (le_of_lt hcl)

theorem C4_witness :
    (⟨2024, 3, 10⟩ : Date).Valid ∧
    (((_add_months ⟨2024, 3, 10⟩ 5).day = (⟨2024, 3, 10⟩ : Date).day →
        (_add_months (_add_months ⟨2024, 3, 10⟩ 5) (-5)).day =
          (_add_months ⟨2024, 3, 10⟩ 5).day →
        _add_months (_add_months ⟨2024, 3, 10⟩ 5) (-5) = ⟨2024, 3, 10⟩) ∧
      (daysInMonth (_add_months ⟨2024, 3, 10⟩ 5).year (_add_months ⟨2024, 3, 10⟩ 5).month <
          (⟨2024, 3, 10⟩ : Date).day →
        (_add_months ⟨2024, 3, 10⟩ 5).day =
            daysInMonth (_add_months ⟨2024, 3, 10⟩ 5).year
              (_add_months ⟨2024, 3, 10⟩ 5).month ∧
          monthIdx (_add_months ⟨2024, 3, 10⟩ 5) = monthIdx ⟨2024, 3, 10⟩ + 5) ∧
      _add_months ⟨2024, 1, 31⟩ 1 = ⟨2024, 2, 29⟩ ∧
      _add_months ⟨2023, 1, 31⟩ 1 = ⟨2023, 2, 28⟩) :=
  ⟨by decide, C4_add_months_round_trip_and_clamp ⟨2024, 3, 10⟩ 5 (by decide)⟩

/-- C7: for every frequency code outside the known enumeration, and for the
one-time code `"never"`, `_expand_occurrences` never fails: it returns the
anchor date alone when the anchor lies inside `[start, endD]`, and the empty
sequence otherwise. -/
theorem C7_unknown_frequency_one_time (next_date : Date) (frequency : String)
    (start endD : Date) (h : frequency = "never" ∨ frequency ∉ knownFreqs) :
    _expand_occurrences next_date frequency start endD =
      if start ≤ next_date ∧ next_date ≤ endD then [next_date] else [] := by
  unfold _expand_occurrences
  rw [if_pos h]

theorem C7_witness :
    ("someFutureCode" = "never" ∨ "someFutureCode" ∉ knownFreqs) ∧
    _expand_occurrences ⟨2024, 1, 7⟩ "someFutureCode" ⟨2024, 1, 1⟩ ⟨2024, 3, 31⟩ =
      (if (⟨2024, 1, 1⟩ : Date) ≤ ⟨2024, 1, 7⟩ ∧ (⟨2024, 1, 7⟩ : Date) ≤ ⟨2024, 3, 31⟩
       then [⟨2024, 1, 7⟩] else []) :=
  ⟨by decide,
    C7_unknown_frequency_one_time ⟨2024, 1, 7⟩ "someFutureCode" ⟨2024, 1, 1⟩ ⟨2024, 3, 31⟩
      (by decide)⟩

/-- C8: every recognized recurring frequency code's step function strictly
advances any valid date (no zero or negative step) and preserves validity;
consequently the expander's forward walk emits nothing once its cursor has
passed `windowEnd` (the loop body is never entered again). -/
theorem C8_step_functions_strictly_advance (freq : String) (hf : freq ∈ stepFreqs)
    (d : Date) (hd : d.Valid) :
    d < advanceFor freq d ∧ (advanceFor freq d).Valid ∧
    ∀ (start e : Date) (n : Nat), ¬ d ≤ e →
      expandWalk (advanceFor freq) start e d n = [] := by
  obtain ⟨h1, h2⟩ := advanceFor_strict hf hd
  refine ⟨h1, h2, ?_⟩
  intro start e n hne
  cases n with
  | zero => rfl
  | succ k =>
      unfold expandWalk
      rw [if_neg hne]

theorem C8_witness :
    "monthly" ∈ stepFreqs ∧ (⟨2024, 1, 31⟩ : Date).Valid ∧
    ((⟨2024, 1, 31⟩ : Date) < advanceFor "monthly" ⟨2024, 1, 31⟩ ∧
      (advanceFor "monthly" ⟨2024, 1, 31⟩).Valid ∧
      ∀ (start e : Date) (n : Nat), ¬ (⟨2024, 1, 31⟩ : Date) ≤ e →
        expandWalk (advanceFor "monthly") start e ⟨2024, 1, 31⟩ n = []) :=
  ⟨by decide, by decide,
    C8_step_functions_strictly_advance "monthly" (by decide) ⟨2024, 1, 31⟩ (by decide)⟩

/-- C9: the threshold evaluator of `run_check` classifies the outcome as an
alert exactly when `min_balance < MIN_BALANCE` (else normal), and when
alerting computes `shortfall = MIN_BALANCE - min_balance`; e.g. minimum
-$100 against threshold $0 triggers an alert with shortfall $100. -/
theorem C9_threshold_evaluator (min_balance : ℚ) (threshold : Int) :
    (∀ s : ℚ, runCheckDecision min_balance threshold = some s ↔
      (min_balance < (threshold : ℚ) ∧ s = (threshold : ℚ) - min_balance)) ∧
    (runCheckDecision min_balance threshold = none ↔ (threshold : ℚ) ≤ min_balance) ∧
    runCheckDecision (-100) 0 = some 100 := by
  refine ⟨?_, ?_, ?_⟩
  · intro s
    unfold runCheckDecision
    by_cases h : min_balance < (threshold : ℚ)
    · rw [if_pos h]
      constructor
      · intro he
        exact ⟨h, (Option.some.inj he).symm⟩
      · intro hs
        rw [hs.2]
    · rw [if_neg h]
      constructor
      · intro he
        exact absurd he (by simp)
      · intro hs
        exact absurd hs.1 h
  · unfold runCheckDecision
    by_cases h : min_balance < (threshold : ℚ)
    · rw [if_pos h]
      constructor
      · intro he
        exact absurd he (by simp)
      · intro hle
        linarith
    · rw [if_neg h]
      exact ⟨fun _ => le_of_not_lt h, fun _ => rfl⟩
  · show (if (-100 : ℚ) < ((0 : Int) : ℚ) then some (((0 : Int) : ℚ) - (-100)) else none)
        = some 100
    rw [if_pos (by norm_num)]
    norm_num

/-- C6 counterexample: the claim that some input makes the simulator return a
minimum strictly above the starting balance fails even on its own motivating
scenario (a balance that only rises): with starting balance $1000, a single
+$500 inflow on day one and no pending credit-card amounts, the minimum is
exactly the starting balance, because the initial minimum check happens at
`today` before any transaction posts. -/
theorem C6_counterexample :
    ¬ (1000 : ℚ) <
      (project_minimum_balance 1000 [⟨⟨2024, 1, 1⟩, 500, none⟩] [] ⟨2024, 1, 1⟩
        ⟨2024, 1, 10⟩).1 := by
  have h : (project_minimum_balance 1000 [⟨⟨2024, 1, 1⟩, 500, none⟩] [] ⟨2024, 1, 1⟩
      ⟨2024, 1, 10⟩).1 = 1000 := by
    with_unfolding_all decide
  rw [h]
  exact lt_irrefl _

/-- C6 (amended): `minimumBalance ≤ startingBalance` IS guaranteed whenever
every pending credit-card amount is nonnegative (which the data model
requires): the simulator initializes its running minimum to
`startingBalance - unreconciledTotal ≤ startingBalance` before walking any
day, and the minimum only ever decreases. -/
theorem C6_minimum_le_starting_balance (current_balance : ℚ) (txns : List Txn)
    (cc : List (String × CCRec)) (today endD : Date)
    (hcc : ∀ p ∈ cc, 0 ≤ p.2.amount) :
    (project_minimum_balance current_balance txns cc today endD).1 ≤ current_balance :=
  project_minimum_balance_fst_le current_balance txns cc today endD hcc

theorem C6_witness :
    (∀ p ∈ [("a", (⟨"Visa", 300⟩ : CCRec))], 0 ≤ p.2.amount) ∧
    (project_minimum_balance 2000 [⟨⟨2024, 1, 3⟩, -1800, none⟩]
        [("a", ⟨"Visa", 300⟩)] ⟨2024, 1, 1⟩ ⟨2024, 1, 10⟩).1 ≤ 2000 :=
  ⟨by decide,
    C6_minimum_le_starting_balance 2000 [⟨⟨2024, 1, 3⟩, -1800, none⟩]
      [("a", ⟨"Visa", 300⟩)] ⟨2024, 1, 1⟩ ⟨2024, 1, 10⟩ (by decide)⟩

/-- C10: `project_minimum_balance` leaves its `cc_payments` argument
unchanged.  In the store-passing model of Python's object graph
(`dict(cc_payments)` copies the key→record bindings but shares the records),
reconciliation only appends freshly built records to the store and rebinds
keys of the copy, so every record the caller's map references (any address
that was in the store before the call) is untouched: the caller's map still
holds the same accounts and amounts afterwards. -/
theorem C10_cc_payments_unchanged (current_balance : ℚ) (txns : List Txn)
    (store : List CCRec) (cc : List (String × Nat)) (today endD : Date) :
    ((project_minimum_balance_heap current_balance txns store cc today endD).2.1).take
        store.length = store ∧
    ∀ a : Nat, a < store.length →
      ((project_minimum_balance_heap current_balance txns store cc today endD).2.1)[a]? =
        store[a]? := by
  obtain ⟨ext, hext⟩ := foldl_reconStepStore_fst txns (store, cc)
  have hfst : (project_minimum_balance_heap current_balance txns store cc today endD).2.1 =
      store ++ ext := by
    unfold project_minimum_balance_heap
    exact hext
  rw [hfst]
  constructor
  · exact List.take_left store ext
  · intro a ha
    exact List.getElem?_append_left ha

theorem C10_witness :
    ((project_minimum_balance_heap 2000 [⟨⟨2024, 1, 3⟩, -1800, some "a"⟩]
          [⟨"Visa", 300⟩] [("a", 0)] ⟨2024, 1, 1⟩ ⟨2024, 1, 10⟩).2.1).take 1
        = [⟨"Visa", 300⟩] ∧
    (0 : Nat) < 1 ∧
    ((project_minimum_balance_heap 2000 [⟨⟨2024, 1, 3⟩, -1800, some "a"⟩]
        [⟨"Visa", 300⟩] [("a", 0)] ⟨2024, 1, 1⟩ ⟨2024, 1, 10⟩).2.1)[0]? =
      [(⟨"Visa", 300⟩ : CCRec)][0]? :=
  ⟨(C10_cc_payments_unchanged 2000 [⟨⟨2024, 1, 3⟩, -1800, some "a"⟩]
      [⟨"Visa", 300⟩] [("a", 0)] ⟨2024, 1, 1⟩ ⟨2024, 1, 10⟩).1,
    by decide,
    (C10_cc_payments_unchanged 2000 [⟨⟨2024, 1, 3⟩, -1800, some "a"⟩]
      [⟨"Visa", 300⟩] [("a", 0)] ⟨2024, 1, 1⟩ ⟨2024, 1, 10⟩).2 0 (by decide)⟩

/-- C2: reconciliation, processing occurrences in their existing order (a
left fold, no re-sorting), subtracts `min(pending, |amount|)` from the
pending payment whose `accountId` matches the occurrence's transfer target —
the updated entry holds exactly that residual and is dropped once the
residual is within the 0.005 epsilon of zero; in particular one $500 pending
payment against transfer occurrences of $200 and $300 leaves residual $0 and
total unreconciled $0, while a single $200 occurrence leaves residual $300. -/
theorem C2_reconciliation (m : List (String × CCRec)) (t : Txn) (tid : String)
    (r : CCRec) (hnd : (m.map Prod.fst).Nodup)
    (ht : t.transfer_account_id = some tid) (htid : tid ≠ "")
    (hget : dictGet m tid = some r) :
    dictGet (reconStep m t) tid =
      (if r.amount - min r.amount |t.amount| ≤ (0.005 : ℚ) then none
       else some ⟨r.name, r.amount - min r.amount |t.amount|⟩) ∧
    reconcileCC [("cc1", ⟨"Visa", 500⟩)]
        [⟨⟨2024, 1, 3⟩, -200, some "cc1"⟩, ⟨⟨2024, 1, 4⟩, -300, some "cc1"⟩] = [] ∧
    ccTotal (reconcileCC [("cc1", ⟨"Visa", 500⟩)]
        [⟨⟨2024, 1, 3⟩, -200, some "cc1"⟩, ⟨⟨2024, 1, 4⟩, -300, some "cc1"⟩]) = 0 ∧
    reconcileCC [("cc1", ⟨"Visa", 500⟩)] [⟨⟨2024, 1, 3⟩, -200, some "cc1"⟩] =
      [("cc1", ⟨"Visa", 300⟩)] := by
  refine ⟨?_, by with_unfolding_all decide, by with_unfolding_all decide,
    by with_unfolding_all decide⟩
  have hstep : reconStep m t =
      (if r.amount - min r.amount |t.amount| ≤ (0.005 : ℚ)
       then dictDel (dictSet m tid ⟨r.name, r.amount - min r.amount |t.amount|⟩) tid
       else dictSet m tid ⟨r.name, r.amount - min r.amount |t.amount|⟩) := by
    unfold reconStep
    rw [ht]
    show (if tid = "" then m
          else match dictGet m tid with
            | none => m
            | some r =>
                let covered := min r.amount |t.amount|
                let newAmt := r.amount - covered
                let m' := dictSet m tid ⟨r.name, newAmt⟩
                if newAmt ≤ (0.005 : ℚ) then dictDel m' tid else m') = _
    rw [if_neg htid, hget]
  rw [hstep]
  by_cases hle : r.amount - min r.amount |t.amount| ≤ (0.005 : ℚ)
  · rw [if_pos hle, if_pos hle]
    exact dictGet_dictDel_dictSet _ hnd
  · rw [if_neg hle, if_neg hle]
    exact dictGet_dictSet_self m tid _

theorem C2_witness :
    ([("cc1", (⟨"Visa", 500⟩ : CCRec))].map Prod.fst).Nodup ∧
    (⟨⟨2024, 1, 3⟩, -200, some "cc1"⟩ : Txn).transfer_account_id = some "cc1" ∧
    ("cc1" : String) ≠ "" ∧
    dictGet [("cc1", (⟨"Visa", 500⟩ : CCRec))] "cc1" = some ⟨"Visa", 500⟩ ∧
    (dictGet (reconStep [("cc1", ⟨"Visa", 500⟩)] ⟨⟨2024, 1, 3⟩, -200, some "cc1"⟩) "cc1" =
        (if (500 : ℚ) - min 500 |(-200 : ℚ)| ≤ (0.005 : ℚ) then none
         else some ⟨"Visa", (500 : ℚ) - min 500 |(-200 : ℚ)|⟩) ∧
      reconcileCC [("cc1", ⟨"Visa", 500⟩)]
          [⟨⟨2024, 1, 3⟩, -200, some "cc1"⟩, ⟨⟨2024, 1, 4⟩, -300, some "cc1"⟩] = [] ∧
      ccTotal (reconcileCC [("cc1", ⟨"Visa", 500⟩)]
          [⟨⟨2024, 1, 3⟩, -200, some "cc1"⟩, ⟨⟨2024, 1, 4⟩, -300, some "cc1"⟩]) = 0 ∧
      reconcileCC [("cc1", ⟨"Visa", 500⟩)] [⟨⟨2024, 1, 3⟩, -200, some "cc1"⟩] =
        [("cc1", ⟨"Visa", 300⟩)]) :=
  ⟨by decide, rfl, by decide, rfl,
    C2_reconciliation [("cc1", ⟨"Visa", 500⟩)] ⟨⟨2024, 1, 3⟩, -200, some "cc1"⟩ "cc1"
      ⟨"Visa", 500⟩ (by decide) rfl (by decide) rfl⟩

/-- C3: for every frequency code, valid anchor date and window,
`_expand_occurrences` returns a strictly ascending (hence duplicate-free)
sequence of dates, every returned date lying inside `[start, endD]`
inclusive. -/
theorem C3_expand_sorted_dedup_in_window (next_date : Date) (frequency : String)
    (start endD : Date) (h : next_date.Valid) :
    (_expand_occurrences next_date frequency start endD).Pairwise (· < ·) ∧
    ∀ x ∈ _expand_occurrences next_date frequency start endD,
      start ≤ x ∧ x ≤ endD := by
  by_cases h1 : frequency = "never" ∨ frequency ∉ knownFreqs
  · have he : _expand_occurrences next_date frequency start endD =
        if start ≤ next_date ∧ next_date ≤ endD then [next_date] else [] := by
      unfold _expand_occurrences
      rw [if_pos h1]
    rw [he]
    split
    · rename_i hw
      refine ⟨List.pairwise_singleton _ _, ?_⟩
      intro x hx
      rw [List.mem_singleton] at hx
      subst hx
      exact hw
    · simp
  · push_neg at h1
    obtain ⟨hnv, hkn⟩ := h1
    by_cases h2 : frequency = "twiceAMonth"
    · subst h2
      rw [_expand_occurrences_twiceAMonth]
      have hd1 : (1 : Int) ≤ next_date.day := h.2.2.1
      have hd2 : (1 : Int) ≤
          (if next_date.day ≤ 15 then next_date.day + 15 else next_date.day - 15) := by
        have := h.2.2.1
        split <;> omega
      have hfv : (⟨next_date.year, next_date.month, 1⟩ : Date).Valid := by
        have := daysInMonth_pos next_date.year next_date.month
        exact ⟨h.1, h.2.1, by norm_num, by dsimp only; omega⟩
      have hbase : (_add_months ⟨next_date.year, next_date.month, 1⟩ (-1)).Valid :=
        _add_months_valid _ hfv
      have hmem := twiceAMonthGo_mem next_date.day
        (if next_date.day ≤ 15 then next_date.day + 15 else next_date.day - 15)
        start endD hd1 hd2
        ((monthIdx endD -
            monthIdx (_add_months ⟨next_date.year, next_date.month, 1⟩ (-1)) + 1).toNat)
        (_add_months ⟨next_date.year, next_date.month, 1⟩ (-1)) hbase
      constructor
      · refine sortedSet_pairwise_lt _ ?_
        intro x hx
        exact (hmem x hx).1
      · intro x hx
        rw [sortedSet_mem] at hx
        exact ⟨(hmem x hx).2.1, (hmem x hx).2.2⟩
    · rw [_expand_occurrences_walk next_date start endD hkn hnv h2]
      have hstep := mem_stepFreqs_of_mem_knownFreqs hkn h2
      have hspec := expandWalk_spec (advanceFor frequency)
        (fun x hx => advanceFor_strict hstep hx) start endD
        ((endD.toRD + 1 - next_date.toRD).toNat) next_date h
      exact ⟨hspec.1, fun x hx => ⟨(hspec.2 x hx).2.1, (hspec.2 x hx).2.2.1⟩⟩

theorem C3_witness :
    (⟨2024, 1, 31⟩ : Date).Valid ∧
    ((_expand_occurrences ⟨2024, 1, 31⟩ "monthly" ⟨2024, 1, 1⟩ ⟨2024, 4, 30⟩).Pairwise
        (· < ·) ∧
      ∀ x ∈ _expand_occurrences ⟨2024, 1, 31⟩ "monthly" ⟨2024, 1, 1⟩ ⟨2024, 4, 30⟩,
        (⟨2024, 1, 1⟩ : Date) ≤ x ∧ x ≤ ⟨2024, 4, 30⟩) :=
  ⟨by decide,
    C3_expand_sorted_dedup_in_window ⟨2024, 1, 31⟩ "monthly" ⟨2024, 1, 1⟩ ⟨2024, 4, 30⟩
      (by decide)⟩

/-- C5 counterexample: the claim reads the `twiceAMonth` month range as
starting one month before *windowStart's* month, but the code starts one
month before the *anchor's* month (`next_date.replace(day=1)` then
`_add_months(d, -1)`).  With anchor 2024-03-20, window
[2024-01-01, 2024-12-31], the two disagree: the claimed rule would emit the
January dates 2024-01-05 and 2024-01-20, which the code never generates. -/
theorem C5_counterexample :
    _expand_occurrences ⟨2024, 3, 20⟩ "twiceAMonth" ⟨2024, 1, 1⟩ ⟨2024, 12, 31⟩ ≠
      twiceAMonthSpecWindowStart ⟨2024, 3, 20⟩ ⟨2024, 1, 1⟩ ⟨2024, 12, 31⟩ := by
  decide

/-- C5 (amended): for the `twiceAMonth` frequency, with paired days `d1` (the
anchor's day-of-month) and `d1+15` if `d1 ≤ 15` else `d1-15`, the expander
considers every month from one month before the *anchor's* month through
`windowEnd`, takes both target days clamped to that month's last day as
candidates, and keeps exactly those candidates inside `[start, endD]`,
deduplicated and sorted. -/
theorem C5_twiceAMonth_months_from_anchor (anchor start endD : Date)
    (h : anchor.Valid) :
    _expand_occurrences anchor "twiceAMonth" start endD =
      twiceAMonthSpecAnchor anchor start endD := by
  rw [_expand_occurrences_twiceAMonth]
  unfold twiceAMonthSpecAnchor twiceAMonthFromBase
  have hfv : (⟨anchor.year, anchor.month, 1⟩ : Date).Valid := by
    have := daysInMonth_pos anchor.year anchor.month
    exact ⟨h.1, h.2.1, by norm_num, by dsimp only; omega⟩
  have hbase : (_add_months ⟨anchor.year, anchor.month, 1⟩ (-1)).Valid :=
    _add_months_valid _ hfv
  have hday1 : (_add_months ⟨anchor.year, anchor.month, 1⟩ (-1)).day = 1 :=
    _add_months_day_one rfl (-1)
  rw [twiceAMonthGo_eq anchor.day
    (if anchor.day ≤ 15 then anchor.day + 15 else anchor.day - 15) start endD
    ((monthIdx endD - monthIdx (_add_months ⟨anchor.year, anchor.month, 1⟩ (-1)) + 1).toNat)
    (_add_months ⟨anchor.year, anchor.month, 1⟩ (-1)) hbase hday1]

theorem C5_witness :
    (⟨2024, 3, 20⟩ : Date).Valid ∧
    _expand_occurrences ⟨2024, 3, 20⟩ "twiceAMonth" ⟨2024, 1, 1⟩ ⟨2024, 12, 31⟩ =
      twiceAMonthSpecAnchor ⟨2024, 3, 20⟩ ⟨2024, 1, 1⟩ ⟨2024, 12, 31⟩ :=
  ⟨by decide,
    C5_twiceAMonth_months_from_anchor ⟨2024, 3, 20⟩ ⟨2024, 1, 1⟩ ⟨2024, 12, 31⟩ (by decide)⟩

/-- C1: the simulator initializes the running balance (and the running
minimum) to `startingBalance - unreconciledTotal` with the minimum recorded
at `today`; it walks every calendar day from `today` to `windowEnd`
inclusive (the visited days are exactly `today + i` for
`i < (windowEnd - today) + 1` in ordinal terms), applying the sum of each
day's occurrence amounts before the minimum check and replacing the recorded
`(minimumBalance, minimumDate)` only on strict decrease; consequently the
returned minimum is the least of the initial value and all end-of-day
balances, and the returned pair is the *first* entry of that value sequence
achieving it — the earliest date achieving the minimum value. -/
theorem C1_simulator_minimum (current_balance : ℚ) (txns : List Txn)
    (cc : List (String × CCRec)) (today endD : Date) (htoday : today.Valid) :
    (project_minimum_balance current_balance txns cc today endD).1 =
      ((balSeq (dayDelta txns) (current_balance - ccTotal (reconcileCC cc txns))
          ((List.range ((endD.toRD + 1 - today.toRD).toNat)).map today.addDays)).map
        Prod.fst).foldl min (current_balance - ccTotal (reconcileCC cc txns)) ∧
    ((current_balance - ccTotal (reconcileCC cc txns), today) ::
        balSeq (dayDelta txns) (current_balance - ccTotal (reconcileCC cc txns))
          ((List.range ((endD.toRD + 1 - today.toRD).toNat)).map today.addDays)).find?
        (fun p => decide
          (p.1 = (project_minimum_balance current_balance txns cc today endD).1)) =
      some (project_minimum_balance current_balance txns cc today endD) := by
  have hdl : dayListGo endD today ((endD.toRD + 1 - today.toRD).toNat) =
      (List.range ((endD.toRD + 1 - today.toRD).toNat)).map today.addDays := by
    refine dayListGo_range endD _ today htoday ?_
    rcases le_or_lt (endD.toRD + 1) today.toRD with hc | hc
    · left
      omega
    · right
      omega
  have hw := walkGo_eq_fold txns endD ((endD.toRD + 1 - today.toRD).toNat)
    (current_balance - ccTotal (reconcileCC cc txns))
    (current_balance - ccTotal (reconcileCC cc txns)) today today
  have hp : project_minimum_balance current_balance txns cc today endD =
      List.foldl minStep (current_balance - ccTotal (reconcileCC cc txns), today)
        (balSeq (dayDelta txns) (current_balance - ccTotal (reconcileCC cc txns))
          ((List.range ((endD.toRD + 1 - today.toRD).toNat)).map today.addDays)) := by
    unfold project_minimum_balance
    rw [hw, hdl]
  rw [hp]
  exact minFold_spec _ _ _

theorem C1_witness :
    (⟨2024, 1, 1⟩ : Date).Valid ∧
    ((project_minimum_balance 1000 [⟨⟨2024, 1, 5⟩, -1500, none⟩] [] ⟨2024, 1, 1⟩
          ⟨2024, 1, 10⟩).1 =
        ((balSeq (dayDelta [⟨⟨2024, 1, 5⟩, -1500, none⟩])
            (1000 - ccTotal (reconcileCC [] [⟨⟨2024, 1, 5⟩, -1500, none⟩]))
            ((List.range (((⟨2024, 1, 10⟩ : Date).toRD + 1 -
                (⟨2024, 1, 1⟩ : Date).toRD).toNat)).map
              (⟨2024, 1, 1⟩ : Date).addDays)).map Prod.fst).foldl min
          (1000 - ccTotal (reconcileCC [] [⟨⟨2024, 1, 5⟩, -1500, none⟩])) ∧
      ((1000 - ccTotal (reconcileCC [] [⟨⟨2024, 1, 5⟩, -1500, none⟩]), ⟨2024, 1, 1⟩) ::
          balSeq (dayDelta [⟨⟨2024, 1, 5⟩, -1500, none⟩])
            (1000 - ccTotal (reconcileCC [] [⟨⟨2024, 1, 5⟩, -1500, none⟩]))
            ((List.range (((⟨2024, 1, 10⟩ : Date).toRD + 1 -
                (⟨2024, 1, 1⟩ : Date).toRD).toNat)).map
              (⟨2024, 1, 1⟩ : Date).addDays)).find?
          (fun p => decide
            (p.1 = (project_minimum_balance 1000 [⟨⟨2024, 1, 5⟩, -1500, none⟩] []
              ⟨2024, 1, 1⟩ ⟨2024, 1, 10⟩).1)) =
        some (project_minimum_balance 1000 [⟨⟨2024, 1, 5⟩, -1500, none⟩] [] ⟨2024, 1, 1⟩
          ⟨2024, 1, 10⟩)) :=
  ⟨by decide,
    C1_simulator_minimum 1000 [⟨⟨2024, 1, 5⟩, -1500, none⟩] [] ⟨2024, 1, 1⟩ ⟨2024, 1, 10⟩
      (by decide)⟩
